import Mathlib

/-!
Verification of the `vscode-hexinspector` ETH-converter hover provider
(`src/extension.ts`).  The file shallow-embeds the extension's computation
pipeline: JavaScript IEEE-754 double arithmetic is modelled by exact
rationals rounded with `fp64`; JavaScript strings become `String` /
`List Char`; the hover provider becomes a pure function from its
configuration, the current exchange rate and the hovered word to an
optional report string.

All rational arithmetic below is written with bespoke `mkRat`-based
operations (`qadd`, `qmul`, ...) that are definitionally equal to the
standard field operations on `ℚ` but reduce inside the kernel, so that
closed instances can be settled by `decide`.
-/

namespace HexInspector

set_option maxRecDepth 100000

/-- `qofNat n` is `(n : ℚ)`, built by the smart constructor `mkRat`. -/
def qofNat (n : Nat) : ℚ := mkRat n 1

/-- `qofInt n` is `(n : ℚ)`, built by the smart constructor `mkRat`. -/
def qofInt (n : Int) : ℚ := mkRat n 1

/-- Kernel-computable addition on `ℚ` (cross multiplication + `mkRat`). -/
def qadd (a b : ℚ) : ℚ := mkRat (a.num * b.den + b.num * a.den) (a.den * b.den)

/-- Kernel-computable subtraction on `ℚ`. -/
def qsub (a b : ℚ) : ℚ := mkRat (a.num * b.den - b.num * a.den) (a.den * b.den)

/-- Kernel-computable multiplication on `ℚ`. -/
def qmul (a b : ℚ) : ℚ := mkRat (a.num * b.num) (a.den * b.den)

/-- Kernel-computable division on `ℚ` (division by zero yields zero,
matching the Lean convention; the model never divides by zero). -/
def qdiv (a b : ℚ) : ℚ :=
  mkRat (a.num * b.den * (if b.num < 0 then -1 else 1)) (a.den * b.num.natAbs)

/-- Kernel-computable absolute value on `ℚ`. -/
def qabs (a : ℚ) : ℚ := mkRat a.num.natAbs a.den

/-- Kernel-computable floor of a rational, as an integer. -/
def qfloor (a : ℚ) : Int := Int.fdiv a.num a.den

/-- Fuelled base-2 logarithm on naturals: `log2fuel n n` is `⌊log₂ n⌋` for
`n ≥ 1`, by structural recursion on the fuel so the kernel can reduce it. -/
def log2fuel : Nat → Nat → Nat
  | 0, _ => 0
  | fuel + 1, n => if n ≤ 1 then 0 else log2fuel fuel (n / 2) + 1

/-- Number of binary digits of a natural number (`0` for `0`). -/
def bitLen (n : Nat) : Nat :=
  if n = 0 then 0 else log2fuel n n + 1

/-- `2^e` as a rational, for an integer exponent. -/
def pow2 (e : Int) : ℚ :=
  if 0 ≤ e then mkRat (2 ^ e.toNat : Nat) 1 else mkRat 1 (2 ^ (-e).toNat)

/-- Round a rational to the nearest integer, ties to even (the IEEE-754
default rounding direction). -/
def rne (m : ℚ) : Int :=
  let f := qfloor m
  let r := qsub m (qofInt f)
  if r < mkRat 1 2 then f
  else if mkRat 1 2 < r then f + 1
  else if f % 2 = 0 then f else f + 1

/-- Approximate binary exponent of a positive rational, within ±1. -/
def fp64exp (a : ℚ) : Int :=
  (bitLen a.num.toNat : Int) - (bitLen a.den : Int)

/-- Fix-up search for the scaling exponent `e` with `2^52 ≤ a / 2^e < 2^53`;
the start value is within 2 of the result, so fuel 4 always suffices. -/
def fp64adjust (a : ℚ) : Int → Nat → Int
  | e, 0 => e
  | e, fuel + 1 =>
    if qmul a (pow2 (-e)) < pow2 52 then fp64adjust a (e - 1) fuel
    else if pow2 53 ≤ qmul a (pow2 (-e)) then fp64adjust a (e + 1) fuel
    else e

/-- Model of rounding an exact rational to the nearest IEEE-754 binary64
value (round to nearest, ties to even), expressed as an exact rational.
Valid on the normal range of binary64, which covers every quantity the
extension computes; overflow and subnormal underflow are not modelled. -/
def fp64 (q : ℚ) : ℚ :=
  if q = 0 then 0
  else
    let a := qabs q
    let e := fp64adjust a (fp64exp a - 53) 4
    let m := rne (qmul a (pow2 (-e)))
    qmul (qofInt (if q.num < 0 then -m else m)) (pow2 e)

/-- JavaScript double division `a / b`: exact division then binary64
rounding. -/
def jsdiv (a b : ℚ) : ℚ := fp64 (qdiv a b)

/-- JavaScript double multiplication `a * b`: exact product then binary64
rounding. -/
def jsmul (a b : ℚ) : ℚ := fp64 (qmul a b)

/-- JavaScript `Math.round`: floor of `x + 1/2` (halves round toward +∞). -/
def jsRound (q : ℚ) : ℚ := qofInt (qfloor (qadd q (mkRat 1 2)))

/-- `10^e` as a rational, for an integer exponent. -/
def qpow10 (e : Int) : ℚ :=
  if 0 ≤ e then mkRat (10 ^ e.toNat : Nat) 1 else mkRat 1 (10 ^ (-e).toNat)

/-- Decimal digit characters. -/
def digitChar (d : Nat) : Char := Char.ofNat (48 + d % 10)

/-- Numeric value of a list of decimal digit characters. -/
def natOfDigits (l : List Char) : Nat :=
  l.foldl (fun a c => 10 * a + (c.toNat - 48)) 0

/-- JavaScript whitespace recognizer for the leading trim of `parseFloat`
(the common whitespace characters suffice for this model). -/
def isJsSpace (c : Char) : Bool :=
  c == ' ' || c == '\t' || c == '\n' || c == '\x0d'

/-- Model of JavaScript `parseFloat`: trim leading whitespace, read an
optional sign, integer digits, an optional fraction `.digits`, and an
optional well-formed exponent (`e`/`E`, optional sign, at least one digit;
a malformed exponent is ignored).  Trailing characters that cannot extend
the literal are ignored, as `parseFloat` parses the longest valid front of
the string.  `none` models a `NaN` result (no digits at all).  The exact
decimal value is rounded to binary64 with `fp64`, exactly as `parseFloat`
returns the nearest double.  (The `Infinity` literal is outside the
rational model and is not modelled.) -/
def parseFloatQ (s : List Char) : Option ℚ :=
  let t := s.dropWhile isJsSpace
  let neg := t.head? = some '-'
  let t1 := if t.head? = some '-' || t.head? = some '+' then t.drop 1 else t
  let ip := t1.takeWhile Char.isDigit
  let t2 := t1.drop ip.length
  let fp := if t2.head? = some '.' then (t2.drop 1).takeWhile Char.isDigit else []
  let t3 := if t2.head? = some '.' then t2.drop (1 + fp.length) else t2
  if ip.isEmpty && fp.isEmpty then none
  else
    let ex :=
      if t3.head? = some 'e' || t3.head? = some 'E' then
        let u := t3.drop 1
        let eneg := u.head? = some '-'
        let u1 := if u.head? = some '-' || u.head? = some '+' then u.drop 1 else u
        let ed := u1.takeWhile Char.isDigit
        if ed.isEmpty then (0 : Int)
        else if eneg then -(natOfDigits ed : Int) else (natOfDigits ed : Int)
      else (0 : Int)
    let mant := qadd (qofNat (natOfDigits ip))
      (qdiv (qofNat (natOfDigits fp)) (qofNat (10 ^ fp.length)))
    let v := qmul mant (qpow10 ex)
    some (fp64 (if neg then qmul (qofInt (-1)) v else v))

example : parseFloatQ "5".data = some (qofNat 5) := by decide
example : parseFloatQ "12,3".data = some (qofNat 12) := by decide
example : parseFloatQ "x".data = none := by decide
example : parseFloatQ "1000000000000000001".data = some (qofNat 1000000000000000000) := by
  decide
example : parseFloatQ "-2.5e1".data = some (qofInt (-25)) := by decide

/-- Decimal digit characters of a natural number, by repeated division
(structural recursion on the fuel, which starts at `n + 1 ≥` the digit
count). -/
def natToCharsAux : Nat → Nat → List Char → List Char
  | 0, _, acc => acc
  | fuel + 1, n, acc =>
    if n < 10 then digitChar n :: acc
    else natToCharsAux fuel (n / 10) (digitChar (n % 10) :: acc)

/-- Decimal digit characters of a natural number, most significant first
(`"0"` for zero), modelling how a JavaScript engine renders the integer
part of a number. -/
def natToChars (n : Nat) : List Char := natToCharsAux (n + 1) n []

/-- The first `fuel` decimal digits of the fractional part `q ∈ [0, 1)`,
modelling how a JavaScript engine renders the fraction digits of a
number. -/
def fracChars : Nat → ℚ → List Char
  | 0, _ => []
  | fuel + 1, q =>
    let d := qfloor (qmul q (qofNat 10))
    digitChar d.toNat :: fracChars fuel (qsub (qmul q (qofNat 10)) (qofInt d))

/-- Remove trailing `'0'` characters. -/
def trimZeros (l : List Char) : List Char :=
  (l.reverse.dropWhile (fun c => c == '0')).reverse

/-- Model of `x.toLocaleString('fullwide', { useGrouping: false,
maximumFractionDigits: 100 })` for a non-negative number `x`: the decimal
digits of the integer part, then — when the first 100 fraction digits are
not all zero — a point and those fraction digits without trailing zeros.
(The engine rounds at the 100ᵗʰ fraction digit where this model truncates;
the two agree on every value whose decimal expansion stops within 100
places, which includes every value the extension ever formats to a
nonzero digit position ≤ 18.) -/
def jsNumToString (q : ℚ) : List Char :=
  let ip := natToChars (qfloor q).toNat
  let fr := trimZeros (fracChars 100 (qsub q (qofInt (qfloor q))))
  ip ++ (if fr.isEmpty then [] else '.' :: fr)

/-- Model of `result.replace(/\.?0+$/, '')`: remove the trailing run of
zeros (if any), together with the decimal point when it immediately
precedes that run. -/
def stripZeros (l : List Char) : List Char :=
  if l.reverse.takeWhile (fun c => c == '0') = [] then l
  else if (l.reverse.dropWhile (fun c => c == '0')).head? = some '.' then
    (l.reverse.dropWhile (fun c => c == '0')).tail.reverse
  else (l.reverse.dropWhile (fun c => c == '0')).reverse

/-- Model of `result.replace(/\.$/, '')`: remove a trailing decimal
point. -/
def stripDot (l : List Char) : List Char :=
  if l.getLast? = some '.' then l.dropLast else l

/-- Model of the JavaScript destructuring
`let [intPart, fracPart = ''] = result.split('.')` for strings holding at
most one `'.'` (every string it is applied to). -/
def splitDot (l : List Char) : List Char × List Char :=
  (l.takeWhile (fun c => c != '.'), (l.dropWhile (fun c => c != '.')).drop 1)

/-- `formatValue` from `extension.ts`: zero prints as `"0"`; otherwise the
absolute value is rendered in full decimal form, the fraction part is
padded/cut to `decimals` places, trailing zeros are stripped unless
`allowTrailingZeros`, a trailing point is stripped, and the sign is
restored. -/
def formatValue (value : ℚ) (decimals : Nat) (allowTrailingZeros : Bool) : String :=
  if value = 0 then "0"
  else
    let result := jsNumToString (qabs value)
    let intPart := (splitDot result).1
    let fracPart0 := (splitDot result).2
    let fracPart := (fracPart0 ++ List.replicate (decimals - fracPart0.length) '0').take decimals
    let r1 := intPart ++ (if fracPart.isEmpty then [] else '.' :: fracPart)
    let r2 := if allowTrailingZeros then r1 else stripZeros r1
    let r3 := stripDot r2
    String.mk (if value.num < 0 then '-' :: r3 else r3)

example : formatValue (qofNat 0) 9 false = "0" := by decide
example : formatValue (qofNat 5) 2 true = "5.00" := by decide
example : formatValue (qofNat 100) 1 false = "100" := by decide
example : formatValue (qdiv (qofNat 3) (qofNat 2)) 9 false = "1.5" := by decide
example : formatValue (qofInt (-3)) 2 true = "-3.00" := by decide
example : formatValue (qdiv (qofNat 255) (qofNat 1000000000)) 9 false = "0.000000255" := by
  decide
example : formatValue (qdiv (qofNat 1000000000000000001) (qofNat 1000000000000000000))
    18 false = "1.000000000000000001" := by decide

/-- The forms map returned by an input handler's `getFormsMap()`.  The
hover provider consults only its `decimal` member
(`formsMap.decimal?.(bytes)`), so only that member is modelled; `none`
models a handler map without a `decimal` key. -/
structure HandlerFormsMap where
  decimal : Option (List Nat → String)

/-- `bytesToDecimal` from `extension.ts`:
`parseFloat((formsMap.decimal?.(bytes) ?? word).replace(',', ''))`,
returning `none` for `NaN`.  Note `String.replace` with a string pattern
removes only the FIRST comma. -/
def removeFirstComma : List Char → List Char
  | [] => []
  | c :: cs => if c = ',' then cs else c :: removeFirstComma cs

/-- `bytesToDecimal(bytes)` from `extension.ts`: prefer the handler-supplied
`decimal` form of the bytes, fall back to the hovered word, remove the
first comma, and `parseFloat` the result (`none` models the `NaN` /
`undefined` outcome). -/
def bytesToDecimal (fm : HandlerFormsMap) (word : String) (bytes : List Nat) : Option ℚ :=
  parseFloatQ (removeFirstComma (match fm.decimal with
    | some f => (f bytes).data
    | none => word.data))

/-- The `wei → gwei` conversion closure: `maybeNumber / 1e9`, 9 decimals. -/
def weiGweiFn (fm : HandlerFormsMap) (word : String) (bytes : List Nat) : String :=
  match bytesToDecimal fm word bytes with
  | none => ""
  | some n => formatValue (jsdiv n (qofNat 1000000000)) 9 false

/-- The `wei → ether` conversion closure: `maybeNumber / 1e18`, 18
decimals. -/
def weiEtherFn (fm : HandlerFormsMap) (word : String) (bytes : List Nat) : String :=
  match bytesToDecimal fm word bytes with
  | none => ""
  | some n => formatValue (jsdiv n (qofNat 1000000000000000000)) 18 false

/-- The `wei → usd` conversion closure: `maybeNumber / 1e18 * rate`, 2
decimals, trailing zeros kept, `'$'` in front. -/
def weiUsdFn (fm : HandlerFormsMap) (word : String) (rate : ℚ) (bytes : List Nat) : String :=
  match bytesToDecimal fm word bytes with
  | none => ""
  | some n => "$" ++ formatValue (jsmul (jsdiv n (qofNat 1000000000000000000)) rate) 2 true

/-- The `gwei → wei` conversion closure: `Math.round(maybeNumber * 1e9)`,
1 decimal. -/
def gweiWeiFn (fm : HandlerFormsMap) (word : String) (bytes : List Nat) : String :=
  match bytesToDecimal fm word bytes with
  | none => ""
  | some n => formatValue (jsRound (jsmul n (qofNat 1000000000))) 1 false

/-- The `gwei → ether` conversion closure: `maybeNumber / 1e9`, 18
decimals. -/
def gweiEtherFn (fm : HandlerFormsMap) (word : String) (bytes : List Nat) : String :=
  match bytesToDecimal fm word bytes with
  | none => ""
  | some n => formatValue (jsdiv n (qofNat 1000000000)) 18 false

/-- The `gwei → usd` conversion closure: `maybeNumber / 1e9 * rate`, 2
decimals, trailing zeros kept, `'$'` in front. -/
def gweiUsdFn (fm : HandlerFormsMap) (word : String) (rate : ℚ) (bytes : List Nat) : String :=
  match bytesToDecimal fm word bytes with
  | none => ""
  | some n => "$" ++ formatValue (jsmul (jsdiv n (qofNat 1000000000)) rate) 2 true

/-- The `ether → wei` conversion closure: `Math.round(maybeNumber * 1e18)`,
1 decimal. -/
def etherWeiFn (fm : HandlerFormsMap) (word : String) (bytes : List Nat) : String :=
  match bytesToDecimal fm word bytes with
  | none => ""
  | some n => formatValue (jsRound (jsmul n (qofNat 1000000000000000000))) 1 false

/-- The `ether → gwei` conversion closure: `maybeNumber * 1e9`, 9
decimals. -/
def etherGweiFn (fm : HandlerFormsMap) (word : String) (bytes : List Nat) : String :=
  match bytesToDecimal fm word bytes with
  | none => ""
  | some n => formatValue (jsmul n (qofNat 1000000000)) 9 false

/-- The `ether → usd` conversion closure: `maybeNumber * rate`, 2 decimals,
trailing zeros kept, `'$'` in front. -/
def etherUsdFn (fm : HandlerFormsMap) (word : String) (rate : ℚ) (bytes : List Nat) : String :=
  match bytesToDecimal fm word bytes with
  | none => ""
  | some n => "$" ++ formatValue (jsmul n rate) 2 true

/-- `weiFormsMap` from `extension.ts`, in object-literal insertion order
(the order `Object.entries` iterates). -/
def weiFormsMap (fm : HandlerFormsMap) (word : String) (rate : ℚ) :
    List (String × (List Nat → String)) :=
  [("gwei", weiGweiFn fm word), ("ether", weiEtherFn fm word), ("usd", weiUsdFn fm word rate)]

/-- `gweiFormsMap` from `extension.ts`, in insertion order. -/
def gweiFormsMap (fm : HandlerFormsMap) (word : String) (rate : ℚ) :
    List (String × (List Nat → String)) :=
  [("wei", gweiWeiFn fm word), ("ether", gweiEtherFn fm word), ("usd", gweiUsdFn fm word rate)]

/-- `etherFormsMap` from `extension.ts`, in insertion order. -/
def etherFormsMap (fm : HandlerFormsMap) (word : String) (rate : ℚ) :
    List (String × (List Nat → String)) :=
  [("wei", etherWeiFn fm word), ("gwei", etherGweiFn fm word), ("usd", etherUsdFn fm word rate)]

/-- `form.charAt(0).toUpperCase() + form.slice(1)` (the unit labels are
ASCII, where `Char.toUpper` agrees with JavaScript `toUpperCase`). -/
def capFirst (s : String) : String :=
  String.mk (match s.data with
    | [] => []
    | c :: rest => Char.toUpper c :: rest)

/-- The running maximum of the key lengths of the three denomination maps:
`formMaxLength = Math.max(formMaxLength, ...Object.keys(form).map(key =>
key.length))` folded over `[weiFormsMap, gweiFormsMap, etherFormsMap]`. -/
def formMaxWidth (maps : List (List (String × (List Nat → String)))) : Nat :=
  maps.foldl (fun m entries => entries.foldl (fun m e => max m e.1.length) m) 0

/-- One section loop of the report builder: for each entry in order, skip
an empty result, otherwise append
`Label:  <padding><result>\n` to the running message. -/
def sectionFold (width : Nat) (entries : List (String × (List Nat → String)))
    (bytes : List Nat) (acc : String) : String :=
  entries.foldl (fun acc e =>
    if e.2 bytes = "" then acc
    else acc ++ capFirst e.1 ++ ":  " ++
      String.mk (List.replicate (width - e.1.length) ' ') ++ e.2 bytes ++ "\n") acc

/-- The report string assembled by `provideHover` once a byte sequence is
available: header, then the Wei, Gwei and Ether sections. -/
def buildMessage (fm : HandlerFormsMap) (word : String) (rate : ℚ) (bytes : List Nat) :
    String :=
  let width := formMaxWidth
    [weiFormsMap fm word rate, gweiFormsMap fm word rate, etherFormsMap fm word rate]
  let m1 := "EthConverter: " ++ word ++ "\n" ++ "\nWei\n"
  let m2 := sectionFold width (weiFormsMap fm word rate) bytes m1
  let m3 := sectionFold width (gweiFormsMap fm word rate) bytes (m2 ++ "\nGwei\n")
  sectionFold width (etherFormsMap fm word rate) bytes (m3 ++ "\nEther\n")

/-- Modelled from the spec: an input handler from the (absent)
`./input_handlers` module.  Per the spec's contracts it offers
`parse(token) → ParsedValue | no-match` (the intermediate `ParsedValue` is
represented as a string — a digit string or raw buffer),
`convert(parsedValue, littleEndian) → ByteSequence`, and a forms map; the
hover provider only reads the `decimal` member of the latter. -/
structure InputHandler where
  parse : String → Option String
  convert : String → Bool → List Nat
  formsMap : HandlerFormsMap

/-- The dispatch loop of `provideHover`: iterate over ALL configured input
data types in order (no early exit); skip names `createInputHandler`
does not know (`create` returns `none`) and tokens the handler's `parse`
rejects; each success overwrites `bytes` and `formsMap`. -/
def dispatch (create : String → Option InputHandler) (inputDataTypes : List String)
    (word : String) (little : Bool) : Option (List Nat × HandlerFormsMap) :=
  inputDataTypes.foldl (fun acc t =>
    match create t with
    | none => acc
    | some h =>
      match h.parse word with
      | none => acc
      | some p => some (h.convert p little, h.formsMap)) none

/-- The endianness label computed by `provideHover`:
`endianness.charAt(0).toUpperCase() + endianness.slice(1).toLowerCase() +
' Endian'`. -/
def endiannessLabel (s : String) : String :=
  String.mk (match s.data with
    | [] => []
    | c :: rest => Char.toUpper c :: rest.map Char.toLower) ++ " Endian"

/-- `provideHover` from `extension.ts` as a pure function of the hovered
word, the configuration (`hexinspector.inputDataTypes`,
`hexinspector.hoverContent`, `hexinspector.endianness`), the abstract
`createInputHandler` factory, and the cached ETH price: `none` models
returning `undefined` (no hover), `some msg` models returning a `Hover`
carrying `msg`. -/
def provideHover (create : String → Option InputHandler) (word : String)
    (inputDataTypes hoverContent : List String) (endianness : String) (rate : ℚ) :
    Option String :=
  if inputDataTypes.length = 0 ∨ hoverContent.length = 0 then none
  else
    match dispatch create inputDataTypes word (endiannessLabel endianness = "Little Endian") with
    | none => none
    | some (bytes, fm) => some (buildMessage fm word rate bytes)

/-- `fetchEthPrice` from `extension.ts`, with the network outcome made
explicit: a successful fetch yields the price, and the `catch` branch
returns `0`. -/
def fetchEthPrice (result : Option ℚ) : ℚ :=
  match result with
  | some price => price
  | none => 0

/-- One tick of the 5-minute refresh interval:
`ethPriceHolder.current = await fetchEthPrice()` — the shared cell is
overwritten unconditionally with whatever `fetchEthPrice` returned. -/
def refreshTick (_current : ℚ) (result : Option ℚ) : ℚ :=
  fetchEthPrice result

/-- The cached price after a sequence of refresh outcomes, starting from
the initial value of `ethPriceHolder.current`. -/
def runRefresh (init : ℚ) (results : List (Option ℚ)) : ℚ :=
  results.foldl refreshTick init

example : weiUsdFn ⟨none⟩ "5" (qofNat 0) [] = "$0" := by decide
example : weiEtherFn ⟨none⟩ "1000000000000000001" [] = "1" := by decide
example : weiGweiFn ⟨none⟩ "255" [] = "0.000000254" := by decide
example : gweiWeiFn ⟨none⟩ "1.5" [] = "1500000000" := by decide
example : bytesToDecimal ⟨none⟩ "1,2,3" [] = some (qofNat 12) := by decide

/-- The spec's `wei → gwei` conversion in its own words: exact rational
division by `10^9` (arbitrary-precision, no floating-point rounding at any
step), then the 9-decimal display format.  Comparator for claim C1. -/
def exactWeiGwei (n : ℚ) : String := formatValue (qdiv n (qofNat 1000000000)) 9 false

/-- The spec's `wei → ether` conversion in its own words: exact rational
division by `10^18`, then the 18-decimal display format.  Comparator for
claim C1. -/
def exactWeiEther (n : ℚ) : String :=
  formatValue (qdiv n (qofNat 1000000000000000000)) 18 false

/-- `bytesToDecimal` as the spec words it: the fallback parses the token
after stripping ALL grouping commas.  Comparator for claim C6. -/
def bytesToDecimalAllCommas (fm : HandlerFormsMap) (word : String) (bytes : List Nat) :
    Option ℚ :=
  parseFloatQ ((match fm.decimal with
    | some f => (f bytes).data
    | none => word.data).filter (fun c => c != ','))

/-! ### Generic list and string helpers -/

theorem strext {a b : String} (h : a.data = b.data) : a = b := by
  cases a
  cases b
  simp_all

theorem takeWhileAppendAll {p : Char → Bool} : ∀ {xs : List Char} (ys : List Char),
    (∀ x ∈ xs, p x = true) → (xs ++ ys).takeWhile p = xs ++ ys.takeWhile p := by
  intro xs
  induction xs with
  | nil => intro ys _; rfl
  | cons x xs ih =>
    intro ys h
    have hx : p x = true := h x (by simp)
    simp [List.takeWhile_cons, hx, ih ys (fun a ha => h a (by simp [ha]))]

theorem dropWhileAppendAll {p : Char → Bool} : ∀ {xs : List Char} (ys : List Char),
    (∀ x ∈ xs, p x = true) → (xs ++ ys).dropWhile p = ys.dropWhile p := by
  intro xs
  induction xs with
  | nil => intro ys _; rfl
  | cons x xs ih =>
    intro ys h
    have hx : p x = true := h x (by simp)
    simp only [List.cons_append, List.dropWhile_cons, hx]
    exact ih ys (fun a ha => h a (by simp [ha]))

theorem dropWhileAppendCases (p : Char → Bool) : ∀ (xs ys : List Char),
    (xs ++ ys).dropWhile p =
      if (xs.dropWhile p).isEmpty then ys.dropWhile p else xs.dropWhile p ++ ys := by
  intro xs
  induction xs with
  | nil => intro ys; rfl
  | cons x xs ih =>
    intro ys
    by_cases hx : p x = true
    · simp only [List.cons_append, List.dropWhile_cons, hx]
      exact ih ys
    · have hx' : p x = false := by revert hx; cases p x <;> simp
      simp [List.dropWhile_cons, hx']

theorem headDropWhile {p : Char → Bool} {l : List Char} {a : Char}
    (h : (l.dropWhile p).head? = some a) : a ∈ l ∧ p a = false := by
  constructor
  · exact (List.dropWhile_sublist p).mem (List.mem_of_mem_head? (by simp [h]))
  · have := List.head?_dropWhile_not p l
    rw [h] at this
    simpa using this

theorem getLastAppendNeNil {l1 l2 : List Char} (h : l2 ≠ []) :
    (l1 ++ l2).getLast? = l2.getLast? :=
  List.getLast?_append_of_ne_nil l1 h

/-! ### Digit characters -/

theorem digitChar_isDigit (d : Nat) : (digitChar d).isDigit = true := by
  unfold digitChar
  have h : d % 10 < 10 := Nat.mod_lt _ (by norm_num)
  generalize d % 10 = k at h
  interval_cases k <;> decide

theorem isDigit_ne_dot {c : Char} (h : c.isDigit = true) : c ≠ '.' := by
  intro he
  rw [he] at h
  exact absurd h (by decide)

theorem isDigit_bne_dot {c : Char} (h : c.isDigit = true) : (c != '.') = true := by
  simpa using isDigit_ne_dot h

theorem natToCharsAux_digits : ∀ (fuel n : Nat) (acc : List Char),
    (∀ c ∈ acc, c.isDigit = true) → ∀ c ∈ natToCharsAux fuel n acc, c.isDigit = true := by
  intro fuel
  induction fuel with
  | zero => intro n acc h; exact h
  | succ fuel ih =>
    intro n acc h c hc
    rw [natToCharsAux] at hc
    split at hc
    · rcases List.mem_cons.mp hc with rfl | hmem
      · exact digitChar_isDigit _
      · exact h _ hmem
    · refine ih _ _ ?_ _ hc
      intro x hx
      rcases List.mem_cons.mp hx with rfl | hmem
      · exact digitChar_isDigit _
      · exact h _ hmem

theorem natToCharsAux_ne_nil : ∀ (fuel n : Nat) (acc : List Char),
    acc ≠ [] → natToCharsAux fuel n acc ≠ [] := by
  intro fuel
  induction fuel with
  | zero => intro n acc h; exact h
  | succ fuel ih =>
    intro n acc h
    rw [natToCharsAux]
    split
    · simp
    · exact ih _ _ (by simp)

theorem natToChars_digits (n : Nat) : ∀ c ∈ natToChars n, c.isDigit = true :=
  natToCharsAux_digits _ _ [] (by simp)

theorem natToChars_ne_nil (n : Nat) : natToChars n ≠ [] := by
  rw [natToChars, natToCharsAux]
  split
  · simp
  · exact natToCharsAux_ne_nil _ _ _ (by simp)

theorem fracChars_digits : ∀ (fuel : Nat) (q : ℚ), ∀ c ∈ fracChars fuel q,
    c.isDigit = true := by
  intro fuel
  induction fuel with
  | zero => intro q c hc; simp [fracChars] at hc
  | succ fuel ih =>
    intro q c hc
    simp only [fracChars] at hc
    rcases List.mem_cons.mp hc with rfl | hmem
    · exact digitChar_isDigit _
    · exact ih _ _ hmem

theorem trimZeros_mem {l : List Char} {c : Char} (h : c ∈ trimZeros l) : c ∈ l := by
  rw [trimZeros] at h
  rw [List.mem_reverse] at h
  have := (List.dropWhile_sublist (fun c => c == '0')).mem h
  exact List.mem_reverse.mp this

theorem head_digits_not_dot {l : List Char} (h : ∀ c ∈ l, c.isDigit = true) :
    l.head? ≠ some '.' := by
  intro hl
  have hc : '.' ∈ l := List.mem_of_mem_head? (by simp [hl])
  exact absurd (h _ hc) (by decide)

theorem getLast_digits_not_dot {l : List Char} (h : ∀ c ∈ l, c.isDigit = true) :
    l.getLast? ≠ some '.' := by
  intro hl
  have hc : '.' ∈ l := List.mem_of_mem_getLast? (by simp [hl])
  exact absurd (h _ hc) (by decide)

/-! ### The split, the strips and the shape of `formatValue` -/

theorem splitDot_append_digits (I F : List Char) (hI : ∀ c ∈ I, c.isDigit = true) :
    splitDot (I ++ '.' :: F) = (I, F) := by
  unfold splitDot
  have hall : ∀ c ∈ I, (c != '.') = true := fun c hc => isDigit_bne_dot (hI c hc)
  rw [takeWhileAppendAll _ hall, dropWhileAppendAll _ hall]
  simp [List.takeWhile_cons, List.dropWhile_cons]

theorem splitDot_digits (I : List Char) (hI : ∀ c ∈ I, c.isDigit = true) :
    splitDot I = (I, []) := by
  unfold splitDot
  have hall : ∀ c ∈ I, (c != '.') = true := fun c hc => isDigit_bne_dot (hI c hc)
  have h1 : (I ++ ([] : List Char)).takeWhile (fun c => c != '.') = I ++ [] := by
    rw [takeWhileAppendAll _ hall]; rfl
  have h2 : (I ++ ([] : List Char)).dropWhile (fun c => c != '.') = [] := by
    rw [dropWhileAppendAll _ hall]; rfl
  rw [List.append_nil] at h1 h2
  rw [h1, h2]
  rfl

theorem withDot_last_not_dot {I F : List Char} (hdI : ∀ c ∈ I, c.isDigit = true)
    (hdF : ∀ c ∈ F, c.isDigit = true) :
    (I ++ (if F.isEmpty then [] else '.' :: F)).getLast? ≠ some '.' := by
  cases F with
  | nil =>
    simp only [List.isEmpty_nil, if_true, List.append_nil]
    exact getLast_digits_not_dot hdI
  | cons f fs =>
    simp only [List.isEmpty_cons, if_false, Bool.false_eq_true]
    rw [getLastAppendNeNil (by simp), List.getLast?_cons_cons]
    exact getLast_digits_not_dot hdF

theorem stripZeros_last_not_dot {I F : List Char} (hdI : ∀ c ∈ I, c.isDigit = true)
    (hdF : ∀ c ∈ F, c.isDigit = true) :
    (stripZeros (I ++ (if F.isEmpty then [] else '.' :: F))).getLast? ≠ some '.' := by
  cases F with
  | nil =>
    simp only [List.isEmpty_nil, if_true, List.append_nil]
    by_cases h1 : I.reverse.takeWhile (fun c => c == '0') = []
    · simp only [stripZeros]
      rw [if_pos h1]
      exact getLast_digits_not_dot hdI
    · simp only [stripZeros]
      rw [if_neg h1]
      by_cases h2 : (I.reverse.dropWhile (fun c => c == '0')).head? = some '.'
      · exfalso
        have hmem := (headDropWhile h2).1
        rw [List.mem_reverse] at hmem
        exact absurd (hdI _ hmem) (by decide)
      · rw [if_neg h2, List.getLast?_reverse]
        exact h2
  | cons f fs =>
    simp only [List.isEmpty_cons, Bool.false_eq_true, if_false]
    by_cases h1 : (I ++ '.' :: f :: fs).reverse.takeWhile (fun c => c == '0') = []
    · simp only [stripZeros]
      rw [if_pos h1]
      rw [getLastAppendNeNil (by simp), List.getLast?_cons_cons]
      exact getLast_digits_not_dot hdF
    · simp only [stripZeros]
      rw [if_neg h1]
      have hrev : (I ++ '.' :: f :: fs).reverse =
          (f :: fs).reverse ++ '.' :: I.reverse := by
        rw [List.reverse_append, List.reverse_cons, List.append_assoc,
          List.singleton_append]
      by_cases h2 : ((I ++ '.' :: f :: fs).reverse.dropWhile (fun c => c == '0')).head? =
          some '.'
      · rw [if_pos h2, List.getLast?_reverse]
        rw [hrev, dropWhileAppendCases] at h2 ⊢
        by_cases hD : ((f :: fs).reverse.dropWhile (fun c => c == '0')).isEmpty
        · rw [if_pos hD] at h2 ⊢
          have hdrop : (('.' :: I.reverse).dropWhile (fun c => c == '0')) =
              '.' :: I.reverse := by
            rw [List.dropWhile_cons]
            simp
          rw [hdrop] at h2 ⊢
          simp only [List.tail_cons]
          apply head_digits_not_dot
          intro c hc
          exact hdI _ (List.mem_reverse.mp hc)
        · exfalso
          rw [if_neg hD] at h2
          obtain ⟨dh, dt, hDeq⟩ : ∃ dh dt,
              (f :: fs).reverse.dropWhile (fun c => c == '0') = dh :: dt := by
            rcases hEq : (f :: fs).reverse.dropWhile (fun c => c == '0') with _ | ⟨a, b⟩
            · rw [hEq] at hD
              simp at hD
            · exact ⟨a, b, rfl⟩
          rw [hDeq] at h2
          simp only [List.cons_append, List.head?_cons] at h2
          have hh : ((f :: fs).reverse.dropWhile (fun c => c == '0')).head? = some dh := by
            rw [hDeq]
            rfl
          have hmem := (headDropWhile hh).1
          rw [List.mem_reverse] at hmem
          have hd : dh.isDigit = true := hdF _ hmem
          obtain rfl : dh = '.' := by injection h2
          exact absurd hd (by decide)
      · rw [if_neg h2, List.getLast?_reverse]
        exact h2

theorem stripDot_of_last_not_dot {l : List Char} (h : l.getLast? ≠ some '.') :
    stripDot l = l := by
  unfold stripDot
  rw [if_neg h]

theorem splitDot_jsNumToString (q : ℚ) :
    splitDot (jsNumToString q) =
      (natToChars (qfloor q).toNat,
        trimZeros (fracChars 100 (qsub q (qofInt (qfloor q))))) := by
  unfold jsNumToString
  by_cases hfr : (trimZeros (fracChars 100 (qsub q (qofInt (qfloor q))))).isEmpty
  · rw [List.isEmpty_iff] at hfr
    rw [hfr]
    simp only [List.isEmpty_nil, if_true, List.append_nil]
    exact splitDot_digits _ (natToChars_digits _)
  · simp only [hfr, Bool.false_eq_true, if_false]
    exact splitDot_append_digits _ _ (natToChars_digits _)

theorem formatValue_shape (v : ℚ) (d : Nat) (a : Bool) (hv : v ≠ 0) :
    ∃ I F, I ≠ [] ∧ (∀ c ∈ I, c.isDigit = true) ∧ (∀ c ∈ F, c.isDigit = true) ∧
      F.length = d ∧
      (formatValue v d a).data =
        (if v.num < 0 then ['-'] else []) ++
          stripDot (if a then I ++ (if F.isEmpty then [] else '.' :: F)
            else stripZeros (I ++ (if F.isEmpty then [] else '.' :: F))) := by
  refine ⟨natToChars (qfloor (qabs v)).toNat,
    (trimZeros (fracChars 100 (qsub (qabs v) (qofInt (qfloor (qabs v))))) ++
      List.replicate
        (d - (trimZeros (fracChars 100 (qsub (qabs v) (qofInt (qfloor (qabs v)))))).length)
        '0').take d,
    natToChars_ne_nil _, natToChars_digits _, ?_, ?_, ?_⟩
  · intro c hc
    rcases List.mem_append.mp (List.mem_of_mem_take hc) with hc1 | hc2
    · exact fracChars_digits _ _ _ (trimZeros_mem hc1)
    · rw [List.eq_of_mem_replicate hc2]
      decide
  · rw [List.length_take, List.length_append, List.length_replicate]
    omega
  · simp only [formatValue, if_neg hv, splitDot_jsNumToString]
    cases hneg : decide (v.num < 0) with
    | true =>
      have hlt : v.num < 0 := of_decide_eq_true hneg
      simp [hlt]
    | false =>
      have hge : ¬ v.num < 0 := of_decide_eq_false hneg
      simp [hge]

theorem formatValue_zero (d : Nat) (a : Bool) : formatValue 0 d a = "0" := by
  simp [formatValue]

theorem jsmul_zero (x : ℚ) : jsmul x 0 = 0 := by
  unfold jsmul qmul
  rw [show ((0 : ℚ).num) = 0 from rfl, Int.mul_zero, Rat.zero_mkRat]
  unfold fp64
  rw [if_pos rfl]

/-- C8: for every numeric value, every decimal count and either
trailing-zeros flag, the string returned by `formatValue` never ends in a
bare decimal point. -/
theorem formatValueNoTrailingDot (v : ℚ) (d : Nat) (a : Bool) :
    (formatValue v d a).data.getLast? ≠ some '.' := by
  by_cases hv : v = 0
  · rw [hv, formatValue_zero]
    decide
  · obtain ⟨I, F, _, hdI, hdF, _, hdata⟩ := formatValue_shape v d a hv
    rw [hdata]
    have hcore : (if a then I ++ (if F.isEmpty then [] else '.' :: F)
        else stripZeros (I ++ (if F.isEmpty then [] else '.' :: F))).getLast? ≠
          some '.' := by
      cases a
      · simpa using stripZeros_last_not_dot hdI hdF
      · simpa using withDot_last_not_dot hdI hdF
    rw [stripDot_of_last_not_dot hcore]
    by_cases hn : v.num < 0
    · rw [if_pos hn]
      rcases hu : (if a then I ++ (if F.isEmpty then [] else '.' :: F)
          else stripZeros (I ++ (if F.isEmpty then [] else '.' :: F))) with _ | ⟨x, xs⟩
      · decide
      · rw [show (['-'] ++ x :: xs) = '-' :: x :: xs from rfl, List.getLast?_cons_cons]
        rw [hu] at hcore
        exact hcore
    · rw [if_neg hn, List.nil_append]
      exact hcore

/-- The nonzero-value component of claim C2: with `allowTrailingZeros` and
2 decimals, the output always carries a decimal point followed by exactly
two digit characters. -/
theorem formatValue_two_decimals (v : ℚ) (hv : v ≠ 0) :
    ∃ l c1 c2, (formatValue v 2 true).data = l ++ ['.', c1, c2] ∧
      c1.isDigit = true ∧ c2.isDigit = true := by
  obtain ⟨I, F, _, hdI, hdF, hFlen, hdata⟩ := formatValue_shape v 2 true hv
  rcases F with _ | ⟨c1, F⟩
  · simp at hFlen
  rcases F with _ | ⟨c2, F⟩
  · simp at hFlen
  rcases F with _ | ⟨c3, F⟩
  case cons.cons.cons => simp at hFlen
  refine ⟨(if v.num < 0 then ['-'] else []) ++ I, c1, c2, ?_, hdF c1 (by simp),
    hdF c2 (by simp)⟩
  rw [hdata]
  simp only [if_true]
  rw [stripDot_of_last_not_dot (withDot_last_not_dot hdI hdF)]
  simp [List.append_assoc]

/-! ### Dispatch characterization -/

/-- The per-encoding outcome of one loop iteration of `provideHover`'s
dispatch: `none` when `createInputHandler` does not know the name or the
handler's `parse` rejects the word, otherwise the byte sequence and forms
map that iteration would store. -/
def dispatchSel (create : String → Option InputHandler) (word : String) (little : Bool)
    (t : String) : Option (List Nat × HandlerFormsMap) :=
  match create t with
  | none => none
  | some h =>
    match h.parse word with
    | none => none
    | some p => some (h.convert p little, h.formsMap)

/-- The body of an overwrite-on-success loop: keep the accumulator when
`g` yields nothing, otherwise replace it. -/
def overwriteStep {α β : Type} (g : α → Option β) (acc : Option β) (x : α) : Option β :=
  match g x with
  | none => acc
  | some y => some y

theorem foldl_overwrite {α β : Type} (g : α → Option β) :
    ∀ (l : List α) (init : Option β),
      l.foldl (overwriteStep g) init =
        match (l.filterMap g).getLast? with | none => init | some y => some y := by
  intro l
  induction l with
  | nil => intro init; rfl
  | cons x xs ih =>
    intro init
    simp only [List.foldl_cons, List.filterMap_cons]
    cases hg : g x with
    | none =>
      simp only [overwriteStep, hg]
      exact ih init
    | some y =>
      simp only [overwriteStep, hg]
      rw [ih]
      rcases hxs : xs.filterMap g with _ | ⟨z, zs⟩
      · rfl
      · rw [List.getLast?_cons_cons]
        cases hlast : (z :: zs).getLast? with
        | none =>
          rw [List.getLast?_eq_none_iff] at hlast
          exact absurd hlast (by simp)
        | some w => rfl

theorem dispatch_eq_getLast (create : String → Option InputHandler) (word : String)
    (little : Bool) (types : List String) :
    dispatch create types word little =
      (types.filterMap (dispatchSel create word little)).getLast? := by
  unfold dispatch
  have hstep : (fun (acc : Option (List Nat × HandlerFormsMap)) t =>
      match create t with
      | none => acc
      | some h =>
        match h.parse word with
        | none => acc
        | some p => some (h.convert p little, h.formsMap)) =
      overwriteStep (dispatchSel create word little) := by
    funext acc t
    unfold overwriteStep dispatchSel
    cases create t with
    | none => rfl
    | some h => cases hp : h.parse word <;> simp [hp]
  rw [hstep, foldl_overwrite (dispatchSel create word little)]
  cases (types.filterMap (dispatchSel create word little)).getLast? <;> rfl

/-- The accepted (type, handler, parsed-value) runs of the dispatch loop;
independent of the endianness flag. -/
def acceptedRuns (create : String → Option InputHandler) (word : String)
    (types : List String) : List (InputHandler × String) :=
  types.filterMap (fun t =>
    match create t with
    | none => none
    | some h =>
      match h.parse word with
      | none => none
      | some p => some (h, p))

theorem getLastMap {α β : Type} (f : α → β) :
    ∀ l : List α, (l.map f).getLast? = (l.getLast?).map f := by
  intro l
  induction l with
  | nil => rfl
  | cons x xs ih =>
    cases xs with
    | nil => rfl
    | cons z zs =>
      rw [List.map_cons, List.map_cons, List.getLast?_cons_cons, ← List.map_cons, ih,
        List.getLast?_cons_cons]

theorem dispatch_factor (create : String → Option InputHandler) (word : String)
    (little : Bool) (types : List String) :
    dispatch create types word little =
      ((acceptedRuns create word types).map
        (fun hp => (hp.1.convert hp.2 little, hp.1.formsMap))).getLast? := by
  rw [dispatch_eq_getLast]
  unfold acceptedRuns
  rw [List.map_filterMap]
  have hfun : dispatchSel create word little = fun t =>
      Option.map (fun hp : InputHandler × String => (hp.1.convert hp.2 little, hp.1.formsMap))
        (match create t with
        | none => none
        | some h =>
          match h.parse word with
          | none => none
          | some p => some (h, p)) := by
    funext t
    unfold dispatchSel
    cases create t with
    | none => rfl
    | some h => cases hp : h.parse word <;> simp [hp]
  rw [hfun]

theorem acceptedRuns_handler {create : String → Option InputHandler} {word : String}
    {types : List String} {hp : InputHandler × String} (h : hp ∈ acceptedRuns create word types) :
    ∃ t, create t = some hp.1 := by
  unfold acceptedRuns at h
  obtain ⟨t, _, ht⟩ := List.mem_filterMap.mp h
  refine ⟨t, ?_⟩
  revert ht
  cases hc : create t with
  | none => intro ht; exact absurd ht (by simp)
  | some h' =>
    cases hp' : h'.parse word with
    | none => intro ht; exact absurd ht (by simp [hp'])
    | some p =>
      intro ht
      simp only [hp'] at ht
      obtain rfl : h' = hp.1 := by
        cases hp
        injection ht with ht'
        exact congrArg Prod.fst ht'
      rfl

/-! ### Report structure -/

/-- One aligned report line: capitalized label, colon, two spaces, padding
to the shared column, value, newline. -/
def entryLine (width : Nat) (name value : String) : String :=
  capFirst name ++ ":  " ++ String.mk (List.replicate (width - name.length) ' ') ++
    value ++ "\n"

/-- Concatenation of a list of strings. -/
def joinAll : List String → String
  | [] => ""
  | s :: rest => s ++ joinAll rest

/-- A report section as the spec describes it: the entries in declaration
order, keeping only the ones with a non-empty result, each rendered as an
aligned `entryLine`. -/
def sectionLines (width : Nat) (entries : List (String × (List Nat → String)))
    (bytes : List Nat) : String :=
  joinAll (entries.filterMap (fun e =>
    if e.2 bytes = "" then none else some (entryLine width e.1 (e.2 bytes))))

theorem sectionFold_spec (width : Nat) (bytes : List Nat) :
    ∀ (entries : List (String × (List Nat → String))) (acc : String),
      sectionFold width entries bytes acc = acc ++ sectionLines width entries bytes := by
  intro entries
  induction entries with
  | nil =>
    intro acc
    simp only [sectionFold, List.foldl_nil, sectionLines, List.filterMap_nil, joinAll]
    rw [String.append_empty]
  | cons e es ih =>
    intro acc
    have hstep : sectionFold width (e :: es) bytes acc =
        sectionFold width es bytes (if e.2 bytes = "" then acc
          else acc ++ capFirst e.1 ++ ":  " ++
            String.mk (List.replicate (width - e.1.length) ' ') ++ e.2 bytes ++ "\n") :=
      rfl
    rw [hstep]
    by_cases he : e.2 bytes = ""
    · rw [if_pos he, ih]
      simp only [sectionLines, List.filterMap_cons, if_pos he]
    · rw [if_neg he, ih]
      simp only [sectionLines, List.filterMap_cons, if_neg he, joinAll, entryLine]
      simp [String.append_assoc]

theorem sectionLines_all_empty {width : Nat} {bytes : List Nat}
    {entries : List (String × (List Nat → String))} (h : ∀ e ∈ entries, e.2 bytes = "") :
    sectionLines width entries bytes = "" := by
  unfold sectionLines
  have hnil : entries.filterMap (fun e =>
      if e.2 bytes = "" then none else some (entryLine width e.1 (e.2 bytes))) = [] := by
    induction entries with
    | nil => rfl
    | cons e es ih =>
      rw [List.filterMap_cons, if_pos (h e (by simp))]
      exact ih (fun x hx => h x (by simp [hx]))
  rw [hnil]
  rfl

theorem sectionLines_congr {width : Nat} {b1 b2 : List Nat}
    {entries : List (String × (List Nat → String))} (h : ∀ e ∈ entries, e.2 b1 = e.2 b2) :
    sectionLines width entries b1 = sectionLines width entries b2 := by
  unfold sectionLines
  have hfm : entries.filterMap (fun e =>
      if e.2 b1 = "" then none else some (entryLine width e.1 (e.2 b1))) =
      entries.filterMap (fun e =>
        if e.2 b2 = "" then none else some (entryLine width e.1 (e.2 b2))) := by
    induction entries with
    | nil => rfl
    | cons e es ih =>
      rw [List.filterMap_cons, List.filterMap_cons, h e (by simp),
        ih (fun x hx => h x (by simp [hx]))]
  rw [hfm]

/-- The report, re-expressed as the spec describes it: fixed header, the
three sections in the order Wei, Gwei, Ether, each section the join of the
aligned lines of its non-empty conversions in declaration order, with the
padding width 5 (the longest unit name, `"ether"`). -/
theorem buildMessage_eq (fm : HandlerFormsMap) (word : String) (rate : ℚ)
    (bytes : List Nat) :
    buildMessage fm word rate bytes =
      "EthConverter: " ++ word ++ "\n" ++ "\nWei\n" ++
        sectionLines 5 (weiFormsMap fm word rate) bytes ++ "\nGwei\n" ++
        sectionLines 5 (gweiFormsMap fm word rate) bytes ++ "\nEther\n" ++
        sectionLines 5 (etherFormsMap fm word rate) bytes := by
  have hw : formMaxWidth [weiFormsMap fm word rate, gweiFormsMap fm word rate,
      etherFormsMap fm word rate] = 5 := rfl
  simp only [buildMessage]
  rw [hw]
  rw [sectionFold_spec, sectionFold_spec, sectionFold_spec]

theorem bytesToDecimal_indep (fm : HandlerFormsMap) (word : String) (b1 b2 : List Nat)
    (h : fm.decimal = none) : bytesToDecimal fm word b1 = bytesToDecimal fm word b2 := by
  unfold bytesToDecimal
  rw [h]

theorem convFns_bytes_indep (fm : HandlerFormsMap) (word : String) (rate : ℚ)
    (h : fm.decimal = none) (b1 b2 : List Nat) :
    (∀ e ∈ weiFormsMap fm word rate, e.2 b1 = e.2 b2) ∧
    (∀ e ∈ gweiFormsMap fm word rate, e.2 b1 = e.2 b2) ∧
    (∀ e ∈ etherFormsMap fm word rate, e.2 b1 = e.2 b2) := by
  have hbd := bytesToDecimal_indep fm word b1 b2 h
  refine ⟨?_, ?_, ?_⟩ <;> intro e he
  · simp only [weiFormsMap, List.mem_cons, List.not_mem_nil, or_false] at he
    rcases he with rfl | rfl | rfl
    · show weiGweiFn fm word b1 = weiGweiFn fm word b2
      unfold weiGweiFn
      rw [hbd]
    · show weiEtherFn fm word b1 = weiEtherFn fm word b2
      unfold weiEtherFn
      rw [hbd]
    · show weiUsdFn fm word rate b1 = weiUsdFn fm word rate b2
      unfold weiUsdFn
      rw [hbd]
  · simp only [gweiFormsMap, List.mem_cons, List.not_mem_nil, or_false] at he
    rcases he with rfl | rfl | rfl
    · show gweiWeiFn fm word b1 = gweiWeiFn fm word b2
      unfold gweiWeiFn
      rw [hbd]
    · show gweiEtherFn fm word b1 = gweiEtherFn fm word b2
      unfold gweiEtherFn
      rw [hbd]
    · show gweiUsdFn fm word rate b1 = gweiUsdFn fm word rate b2
      unfold gweiUsdFn
      rw [hbd]
  · simp only [etherFormsMap, List.mem_cons, List.not_mem_nil, or_false] at he
    rcases he with rfl | rfl | rfl
    · show etherWeiFn fm word b1 = etherWeiFn fm word b2
      unfold etherWeiFn
      rw [hbd]
    · show etherGweiFn fm word b1 = etherGweiFn fm word b2
      unfold etherGweiFn
      rw [hbd]
    · show etherUsdFn fm word rate b1 = etherUsdFn fm word rate b2
      unfold etherUsdFn
      rw [hbd]

theorem buildMessage_bytes_indep (fm : HandlerFormsMap) (word : String) (rate : ℚ)
    (h : fm.decimal = none) (b1 b2 : List Nat) :
    buildMessage fm word rate b1 = buildMessage fm word rate b2 := by
  obtain ⟨h1, h2, h3⟩ := convFns_bytes_indep fm word rate h b1 b2
  rw [buildMessage_eq, buildMessage_eq, sectionLines_congr h1, sectionLines_congr h2,
    sectionLines_congr h3]

theorem convFns_none (fm : HandlerFormsMap) (word : String) (rate : ℚ) (b : List Nat)
    (h : bytesToDecimal fm word b = none) :
    (∀ e ∈ weiFormsMap fm word rate, e.2 b = "") ∧
    (∀ e ∈ gweiFormsMap fm word rate, e.2 b = "") ∧
    (∀ e ∈ etherFormsMap fm word rate, e.2 b = "") := by
  refine ⟨?_, ?_, ?_⟩ <;> intro e he
  · simp only [weiFormsMap, List.mem_cons, List.not_mem_nil, or_false] at he
    rcases he with rfl | rfl | rfl
    · show weiGweiFn fm word b = ""
      unfold weiGweiFn
      rw [h]
    · show weiEtherFn fm word b = ""
      unfold weiEtherFn
      rw [h]
    · show weiUsdFn fm word rate b = ""
      unfold weiUsdFn
      rw [h]
  · simp only [gweiFormsMap, List.mem_cons, List.not_mem_nil, or_false] at he
    rcases he with rfl | rfl | rfl
    · show gweiWeiFn fm word b = ""
      unfold gweiWeiFn
      rw [h]
    · show gweiEtherFn fm word b = ""
      unfold gweiEtherFn
      rw [h]
    · show gweiUsdFn fm word rate b = ""
      unfold gweiUsdFn
      rw [h]
  · simp only [etherFormsMap, List.mem_cons, List.not_mem_nil, or_false] at he
    rcases he with rfl | rfl | rfl
    · show etherWeiFn fm word b = ""
      unfold etherWeiFn
      rw [h]
    · show etherGweiFn fm word b = ""
      unfold etherGweiFn
      rw [h]
    · show etherUsdFn fm word rate b = ""
      unfold etherUsdFn
      rw [h]

/-- A sample input handler used to instantiate universally quantified
statements: it accepts every token, converts it to its character codes
honoring the endianness flag, and supplies no custom decimal formatter. -/
def sampleHandler : InputHandler :=
  ⟨fun w => some w,
    fun p little =>
      if little then (p.data.map Char.toNat).reverse else p.data.map Char.toNat,
    ⟨none⟩⟩

/-- A sample `createInputHandler` factory that knows every name. -/
def sampleCreate : String → Option InputHandler := fun _ => some sampleHandler

/-! ### The claims -/

/-- C1: the claim says every wei/gwei/ether/USD conversion is performed in
arbitrary-precision decimal arithmetic with results equal to exact rational
arithmetic.  The code computes with IEEE-754 doubles (`parseFloat`, `/`,
`*`, `Math.round`): for the token `"255"` taken as wei, the engine
displays gwei `"0.000000254"` (the double nearest 255/10⁹ is
0.00000025499999999999999375…), while exact rational arithmetic — and the
spec's own test for `0xff` — gives `"0.000000255"`; for wei
`"1000000000000000001"` the engine shows ether `"1"` instead of the exact
`"1.000000000000000001"`. -/
theorem conversionFloatLoss :
    weiGweiFn ⟨none⟩ "255" [] = "0.000000254" ∧
    exactWeiGwei (qofNat 255) = "0.000000255" ∧
    weiEtherFn ⟨none⟩ "1000000000000000001" [] = "1" ∧
    exactWeiEther (qofNat 1000000000000000001) = "1.000000000000000001" :=
  ⟨by decide, by decide, by decide, by decide⟩

/-- C2 counterexample: with the cached rate 0 the computed dollar value is
exactly zero and the USD line renders `"$0"`, not `"$0.00"` —
`formatValue` returns the bare `"0"` for a zero value before the
trailing-zeros policy is ever consulted. -/
theorem usdZeroCounterexample :
    weiUsdFn ⟨none⟩ "5" 0 [] = "$0" ∧ weiUsdFn ⟨none⟩ "5" 0 [] ≠ "$0.00" :=
  ⟨by decide, by decide⟩

/-- C2 (amended): a NONZERO computed USD value shows exactly 2 decimal
places with trailing zeros retained (value 5 renders as `"$5.00"`), but a
computed USD value of exactly zero renders as `"$0"` (in particular
whenever the cached exchange rate is 0). -/
theorem usdFormatting :
    (∀ v : ℚ, v ≠ 0 → ∃ l c1 c2, (formatValue v 2 true).data = l ++ ['.', c1, c2] ∧
      c1.isDigit = true ∧ c2.isDigit = true) ∧
    (∀ (fm : HandlerFormsMap) (word : String) (bytes : List Nat) (n : ℚ),
      bytesToDecimal fm word bytes = some n →
        weiUsdFn fm word 0 bytes = "$0" ∧ gweiUsdFn fm word 0 bytes = "$0" ∧
          etherUsdFn fm word 0 bytes = "$0") := by
  constructor
  · exact formatValue_two_decimals
  · intro fm word bytes n h
    refine ⟨?_, ?_, ?_⟩
    · unfold weiUsdFn
      rw [h]
      show "$" ++ formatValue (jsmul (jsdiv n (qofNat 1000000000000000000)) 0) 2 true = "$0"
      rw [jsmul_zero, formatValue_zero]
      decide
    · unfold gweiUsdFn
      rw [h]
      show "$" ++ formatValue (jsmul (jsdiv n (qofNat 1000000000)) 0) 2 true = "$0"
      rw [jsmul_zero, formatValue_zero]
      decide
    · unfold etherUsdFn
      rw [h]
      show "$" ++ formatValue (jsmul n 0) 2 true = "$0"
      rw [jsmul_zero, formatValue_zero]
      decide

/-- C2 witness: the amended theorem applied at the concrete value 5. -/
theorem usdFormattingWitness :
    (qofNat 5 ≠ 0) ∧
    (∃ l c1 c2, (formatValue (qofNat 5) 2 true).data = l ++ ['.', c1, c2] ∧
      c1.isDigit = true ∧ c2.isDigit = true) :=
  ⟨by decide, usdFormatting.1 (qofNat 5) (by decide)⟩

/-- C3 counterexample: after a successful refresh to 100, a failed
refresh stores 0 — the cached rate is NOT retained. -/
theorem failedRefreshResetsRate :
    runRefresh 0 [some 100, none] = 0 ∧ (0 : ℚ) ≠ 100 :=
  ⟨rfl, by norm_num⟩

/-- C3 (amended): the shared rate cell is overwritten on EVERY tick, not
only on success: after any refresh history, a final successful fetch
stores its price and a final failed fetch stores 0 (the `catch` branch of
`fetchEthPrice` returns 0 and the interval handler assigns it
unconditionally), discarding whatever was cached before. -/
theorem refreshAlwaysOverwrites :
    (∀ (init : ℚ) (pre : List (Option ℚ)) (p : ℚ),
      runRefresh init (pre ++ [some p]) = p) ∧
    (∀ (init : ℚ) (pre : List (Option ℚ)), runRefresh init (pre ++ [none]) = 0) := by
  constructor
  · intro init pre p
    unfold runRefresh
    rw [List.foldl_append]
    rfl
  · intro init pre
    unfold runRefresh
    rw [List.foldl_append]
    rfl

/-- C4: the dispatch loop iterates over every configured encoding without
stopping at the first success, and the byte sequence and forms map that
reach the report are the ones produced by the LAST configured encoding
whose parser accepts the token (`getLast?` of the accepted outcomes). -/
theorem dispatchLastWins (create : String → Option InputHandler) (word : String)
    (little : Bool) (types : List String) :
    dispatch create types word little =
      (types.filterMap (dispatchSel create word little)).getLast? :=
  dispatch_eq_getLast create word little types

/-- C5: the inspection yields nothing exactly when the configured encoding
list is empty, the configured unit-category list is empty, or no
configured encoding accepts the token; in every other case a report string
is produced. -/
theorem provideHoverNoneIff (create : String → Option InputHandler) (word : String)
    (types forms : List String) (endianness : String) (rate : ℚ) :
    provideHover create word types forms endianness rate = none ↔
      types = [] ∨ forms = [] ∨
        types.filterMap
          (dispatchSel create word (endiannessLabel endianness = "Little Endian")) = [] := by
  unfold provideHover
  by_cases hc : types.length = 0 ∨ forms.length = 0
  · rw [if_pos hc]
    have hd : types = [] ∨ forms = [] := by
      rcases hc with hc | hc
      · exact Or.inl (List.length_eq_zero.mp hc)
      · exact Or.inr (List.length_eq_zero.mp hc)
    constructor
    · intro _
      tauto
    · intro _
      rfl
  · rw [if_neg hc]
    push_neg at hc
    have ht : types ≠ [] := by
      intro h
      exact hc.1 (by simp [h])
    have hf : forms ≠ [] := by
      intro h
      exact hc.2 (by simp [h])
    rw [dispatch_eq_getLast]
    cases hlast : (types.filterMap
        (dispatchSel create word (endiannessLabel endianness = "Little Endian"))).getLast?
        with
    | none =>
      rw [List.getLast?_eq_none_iff] at hlast
      constructor
      · intro _
        exact Or.inr (Or.inr hlast)
      · intro _
        rfl
    | some y =>
      obtain ⟨b, fm⟩ := y
      have hne : types.filterMap
          (dispatchSel create word (endiannessLabel endianness = "Little Endian")) ≠ [] := by
        intro hnil
        rw [hnil] at hlast
        simp at hlast
      constructor
      · intro habs
        exact absurd habs (by simp)
      · intro hdisj
        rcases hdisj with h | h | h
        · exact absurd h ht
        · exact absurd h hf
        · exact absurd h hne

/-- C6 counterexample: `replace(',', '')` with a string pattern removes
only the FIRST comma, so the fallback parse of `"1,2,3"` yields 12
(`parseFloat "12,3"` stops at the remaining comma), while stripping all
grouping commas as the claim states would yield 123. -/
theorem firstCommaOnlyCounterexample :
    bytesToDecimal ⟨none⟩ "1,2,3" [] = some (qofNat 12) ∧
    bytesToDecimalAllCommas ⟨none⟩ "1,2,3" [] = some (qofNat 123) ∧
    qofNat 12 ≠ qofNat 123 :=
  ⟨by decide, by decide, by decide⟩

/-- C6 (amended): `bytesToDecimal` prefers the handler-supplied decimal
formatter (the hovered word is then irrelevant); without one it falls back
to parsing the token text after removing only the FIRST grouping comma;
a `NaN` outcome yields no value, and every conversion line is then omitted
from the report, which degenerates to the bare header and section
titles. -/
theorem bytesToDecimalFallback :
    (∀ (fm : HandlerFormsMap) (f : List Nat → String) (w1 w2 : String) (b : List Nat),
      fm.decimal = some f → bytesToDecimal fm w1 b = bytesToDecimal fm w2 b) ∧
    (∀ (fm : HandlerFormsMap) (w : String) (b : List Nat), fm.decimal = none →
      bytesToDecimal fm w b = parseFloatQ (removeFirstComma w.data)) ∧
    (∀ (fm : HandlerFormsMap) (w : String) (rate : ℚ) (b : List Nat),
      bytesToDecimal fm w b = none →
        buildMessage fm w rate b =
          "EthConverter: " ++ w ++ "\n" ++ "\nWei\n" ++ "\nGwei\n" ++ "\nEther\n") := by
  refine ⟨?_, ?_, ?_⟩
  · intro fm f w1 w2 b hf
    unfold bytesToDecimal
    rw [hf]
  · intro fm w b hn
    unfold bytesToDecimal
    rw [hn]
  · intro fm w rate b hnone
    obtain ⟨h1, h2, h3⟩ := convFns_none fm w rate b hnone
    rw [buildMessage_eq, sectionLines_all_empty h1, sectionLines_all_empty h2,
      sectionLines_all_empty h3]
    simp [String.append_assoc, String.append_empty]

/-- C6 witness: the omission clause applied to the unparseable token
`"x"`. -/
theorem bytesToDecimalFallbackWitness :
    bytesToDecimal ⟨none⟩ "x" [] = none ∧
    buildMessage ⟨none⟩ "x" 0 [] =
      "EthConverter: " ++ "x" ++ "\n" ++ "\nWei\n" ++ "\nGwei\n" ++ "\nEther\n" :=
  ⟨by decide, bytesToDecimalFallback.2.2 ⟨none⟩ "x" 0 [] (by decide)⟩

/-- C7: the report is the fixed header `EthConverter: <token>` followed by
the Wei, Gwei, Ether sections in that order; each section lists only the
non-empty conversions, in declaration order (the other two denominations,
then USD), as capitalized label, colon, and padding derived from the
longest unit name (5, `"ether"`) so that every value starts at the same
column (label-plus-padding is always 8 characters wide). -/
theorem reportLayout (fm : HandlerFormsMap) (word : String) (rate : ℚ) (bytes : List Nat) :
    buildMessage fm word rate bytes =
      "EthConverter: " ++ word ++ "\n" ++ "\nWei\n" ++
        sectionLines 5 (weiFormsMap fm word rate) bytes ++ "\nGwei\n" ++
        sectionLines 5 (gweiFormsMap fm word rate) bytes ++ "\nEther\n" ++
        sectionLines 5 (etherFormsMap fm word rate) bytes ∧
    formMaxWidth [weiFormsMap fm word rate, gweiFormsMap fm word rate,
      etherFormsMap fm word rate] = 5 ∧
    (∀ entries ∈ [weiFormsMap fm word rate, gweiFormsMap fm word rate,
        etherFormsMap fm word rate], ∀ e ∈ entries,
      (capFirst e.1 ++ ":  " ++
        String.mk (List.replicate (5 - e.1.length) ' ')).length = 5 + 3) := by
  refine ⟨buildMessage_eq fm word rate bytes, rfl, ?_⟩
  intro entries hmem e he
  simp only [List.mem_cons, List.not_mem_nil, or_false] at hmem
  rcases hmem with rfl | rfl | rfl
  · simp only [weiFormsMap, List.mem_cons, List.not_mem_nil, or_false] at he
    rcases he with rfl | rfl | rfl
    · show (capFirst "gwei" ++ ":  " ++
          String.mk (List.replicate (5 - String.length "gwei") ' ')).length = 5 + 3
      decide
    · show (capFirst "ether" ++ ":  " ++
          String.mk (List.replicate (5 - String.length "ether") ' ')).length = 5 + 3
      decide
    · show (capFirst "usd" ++ ":  " ++
          String.mk (List.replicate (5 - String.length "usd") ' ')).length = 5 + 3
      decide
  · simp only [gweiFormsMap, List.mem_cons, List.not_mem_nil, or_false] at he
    rcases he with rfl | rfl | rfl
    · show (capFirst "wei" ++ ":  " ++
          String.mk (List.replicate (5 - String.length "wei") ' ')).length = 5 + 3
      decide
    · show (capFirst "ether" ++ ":  " ++
          String.mk (List.replicate (5 - String.length "ether") ' ')).length = 5 + 3
      decide
    · show (capFirst "usd" ++ ":  " ++
          String.mk (List.replicate (5 - String.length "usd") ' ')).length = 5 + 3
      decide
  · simp only [etherFormsMap, List.mem_cons, List.not_mem_nil, or_false] at he
    rcases he with rfl | rfl | rfl
    · show (capFirst "wei" ++ ":  " ++
          String.mk (List.replicate (5 - String.length "wei") ' ')).length = 5 + 3
      decide
    · show (capFirst "gwei" ++ ":  " ++
          String.mk (List.replicate (5 - String.length "gwei") ' ')).length = 5 + 3
      decide
    · show (capFirst "usd" ++ ":  " ++
          String.mk (List.replicate (5 - String.length "usd") ' ')).length = 5 + 3
      decide

/-- C7 witness: the alignment clause applied to the `usd` entry of the wei
section. -/
theorem reportLayoutWitness :
    (capFirst "usd" ++ ":  " ++ String.mk (List.replicate (5 - "usd".length) ' ')).length =
      5 + 3 :=
  (reportLayout ⟨none⟩ "w" 0 []).2.2 (weiFormsMap ⟨none⟩ "w" 0) (by simp)
    ("usd", weiUsdFn ⟨none⟩ "w" 0) (by simp [weiFormsMap])

/-- C8: the string returned by `formatValue` never ends in a bare decimal
point, for every value, decimal count and trailing-zeros flag. -/
theorem formatValueNoBareDot (v : ℚ) (d : Nat) (a : Bool) :
    (formatValue v d a).data.getLast? ≠ some '.' :=
  formatValueNoTrailingDot v d a

/-- C9: when the winning handler's forms map supplies no custom decimal
formatter, the report is a function of the hovered token alone — the byte
sequence (and with it the configured endianness) has no effect: the
message is the same for any two byte sequences, and the hover result is
the same under any two endianness settings. -/
theorem reportIndependence :
    (∀ (fm : HandlerFormsMap) (word : String) (rate : ℚ), fm.decimal = none →
      ∀ b1 b2, buildMessage fm word rate b1 = buildMessage fm word rate b2) ∧
    (∀ (create : String → Option InputHandler) (word : String)
      (types forms : List String) (e1 e2 : String) (rate : ℚ),
      (∀ t h, create t = some h → h.formsMap.decimal = none) →
      provideHover create word types forms e1 rate =
        provideHover create word types forms e2 rate) := by
  constructor
  · intro fm word rate h b1 b2
    exact buildMessage_bytes_indep fm word rate h b1 b2
  · intro create word types forms e1 e2 rate hdec
    unfold provideHover
    by_cases hc : types.length = 0 ∨ forms.length = 0
    · rw [if_pos hc, if_pos hc]
    · rw [if_neg hc, if_neg hc]
      rw [dispatch_factor create word (endiannessLabel e1 = "Little Endian") types,
        dispatch_factor create word (endiannessLabel e2 = "Little Endian") types,
        getLastMap, getLastMap]
      cases hlast : (acceptedRuns create word types).getLast? with
      | none => rfl
      | some hp =>
        have hmem : hp ∈ acceptedRuns create word types := by
          apply List.mem_of_mem_getLast?
          rw [hlast]
          rfl
        obtain ⟨t, ht⟩ := acceptedRuns_handler hmem
        have hdecnone : hp.1.formsMap.decimal = none := hdec t hp.1 ht
        exact congrArg some (buildMessage_bytes_indep _ _ _ hdecnone _ _)

/-- C9 witness: the endianness-independence clause applied to a concrete
handler without a decimal formatter; big- and little-endian byte orders
produce identical hover results. -/
theorem reportIndependenceWitness :
    provideHover sampleCreate "7" ["decimal"] ["wei"] "big" 0 =
      provideHover sampleCreate "7" ["decimal"] ["wei"] "little" 0 :=
  reportIndependence.2 sampleCreate "7" ["decimal"] ["wei"] "big" "little" 0
    (fun t h ht => by
      have hh : sampleHandler = h := by
        simpa [sampleCreate] using ht
      rw [← hh]
      rfl)

/-- C10: the `hoverContent` unit-category list is consulted only for the
emptiness check — any two non-empty configured lists produce the same
hover result, whatever categories they name and in whatever order. -/
theorem hoverContentOnlyEmptiness (create : String → Option InputHandler) (word : String)
    (types f1 f2 : List String) (endianness : String) (rate : ℚ)
    (h1 : f1 ≠ []) (h2 : f2 ≠ []) :
    provideHover create word types f1 endianness rate =
      provideHover create word types f2 endianness rate := by
  unfold provideHover
  by_cases ht : types.length = 0
  · rw [if_pos (Or.inl ht), if_pos (Or.inl ht)]
  · have hf1 : ¬ f1.length = 0 := by
      intro h
      exact h1 (List.length_eq_zero.mp h)
    have hf2 : ¬ f2.length = 0 := by
      intro h
      exact h2 (List.length_eq_zero.mp h)
    rw [if_neg (by tauto), if_neg (by tauto)]

/-- C10 witness: the theorem applied to two concrete distinct non-empty
unit lists. -/
theorem hoverContentOnlyEmptinessWitness :
    provideHover sampleCreate "7" ["decimal"] ["wei"] "big" 0 =
      provideHover sampleCreate "7" ["decimal"] ["wei", "gwei", "ether"] "big" 0 :=
  hoverContentOnlyEmptiness sampleCreate "7" ["decimal"] ["wei"]
    ["wei", "gwei", "ether"] "big" 0 (by simp) (by simp)

end HexInspector
